import Mathlib

/-!
Verification of the session-console core of `selfbot_voice.py`: the call
lifecycle tracker (`_record_incoming_call`, `_mark_call_answered`,
`_finalize_call`, `_missed_call_entries`), the fuzzy menu filter
(`_filter_menu_items`, `_fuzzy_in_order`), the notification center
(`_push_notice`, `_current_notice`) and the bounded debug/probe logs
(`_dbg`, `_video_probe_event`).

The Python state is embedded shallowly: `_call_history` is a `List CallRecord`
(front = most recent), `_active_call_records` (a `dict[int, int]`, keys unique)
is an association list `List (Int × Int)` with first-occurrence lookup, and the
handlers are total Lean functions (the Python code raises no exception on any
path modelled here; totality of the embedding reflects that).
-/

namespace SelfbotVoice

/-- Status strings stored in a call record: `"ringing" | "answered" | "ended" | "missed"`. -/
inductive CallStatus where
  | ringing
  | answered
  | ended
  | missed
deriving DecidableEq, Repr

/-- One entry of `_call_history`: the dict built in `_record_incoming_call`
(`ts`, `channel_id`, `peer`, `from`, `status`, `answered`, `missed`). -/
structure CallRecord where
  ts : String
  channelId : Int
  peer : String
  fromLabel : String
  status : CallStatus
  answered : Bool
  missed : Bool
deriving DecidableEq, Repr

/-- Default record used to express the (bounds-checked) list indexing
`self._call_history[idx]` with `List.getD`. -/
def defaultCallRecord : CallRecord :=
  { ts := "", channelId := 0, peer := "", fromLabel := "",
    status := .ringing, answered := false, missed := false }

/-- First-occurrence lookup in an association list: `dict.get(k)`. -/
def lookupA (m : List (Int × Int)) (k : Int) : Option Int :=
  match m with
  | [] => none
  | (k1, v) :: rest => if k1 = k then some v else lookupA rest k

/-- `dict[k] = v`: replace the value at the first occurrence of `k`,
or append a fresh binding. -/
def setA (m : List (Int × Int)) (k : Int) (v : Int) : List (Int × Int) :=
  match m with
  | [] => [(k, v)]
  | (k1, v1) :: rest => if k1 = k then (k1, v) :: rest else (k1, v1) :: setA rest k v

/-- `dict.pop(k, None)` (the removal part): drop the first binding of `k`. -/
def eraseA (m : List (Int × Int)) (k : Int) : List (Int × Int) :=
  match m with
  | [] => []
  | (k1, v1) :: rest => if k1 = k then rest else (k1, v1) :: eraseA rest k

/-- Tracker state: `self._call_history` and `self._active_call_records`. -/
structure TrackerState where
  callHistory : List CallRecord
  activeCallRecords : List (Int × Int)
deriving DecidableEq, Repr

/-- The empty tracker state set up in `__init__`. -/
def initTracker : TrackerState := { callHistory := [], activeCallRecords := [] }

/-- The data a `RingingToMe` event carries into `_record_incoming_call`:
channel id, timestamp, peer label and initiator label. -/
structure RingInfo where
  channelId : Int
  ts : String
  peer : String
  fromLabel : String
deriving DecidableEq, Repr

/-- The record inserted at the history front by `_record_incoming_call`. -/
def mkRingRecord (r : RingInfo) : CallRecord :=
  { ts := r.ts, channelId := r.channelId, peer := r.peer, fromLabel := r.fromLabel,
    status := .ringing, answered := false, missed := false }

/-- `_record_incoming_call`: shift every active index by +1, insert the new
record at the history front, truncate to 100, drop active entries whose index
exceeds the last valid index, then set the channel's index to 0. -/
def recordIncomingCall (s : TrackerState) (r : RingInfo) : TrackerState :=
  let shifted := s.activeCallRecords.map (fun p => (p.1, p.2 + 1))
  let hist := (mkRingRecord r :: s.callHistory).take 100
  let maxIdx : Int := (hist.length : Int) - 1
  let pruned := shifted.filter (fun p => ! decide (maxIdx < p.2))
  { callHistory := hist, activeCallRecords := setA pruned r.channelId 0 }

/-- `_mark_call_answered`: look up the channel's index; if absent or out of
bounds, return unchanged; otherwise set `answered := true`,
`status := "answered"`, `missed := false` on the referenced record. -/
def markCallAnswered (s : TrackerState) (channelId : Int) : TrackerState :=
  match lookupA s.activeCallRecords channelId with
  | none => s
  | some idx =>
    if idx < 0 ∨ (s.callHistory.length : Int) ≤ idx then s
    else
      let n := idx.toNat
      let e := s.callHistory.getD n defaultCallRecord
      { s with callHistory :=
          s.callHistory.set n { e with answered := true, status := .answered, missed := false } }

/-- `_finalize_call`: pop the channel's index; if it was absent or out of
bounds, the history is untouched; otherwise the referenced record becomes
`"ended"` when it was answered, else `"missed"` with `missed := true`. -/
def finalizeCall (s : TrackerState) (channelId : Int) : TrackerState :=
  match lookupA s.activeCallRecords channelId with
  | none => s
  | some idx =>
    let active1 := eraseA s.activeCallRecords channelId
    if idx < 0 ∨ (s.callHistory.length : Int) ≤ idx then
      { s with activeCallRecords := active1 }
    else
      let n := idx.toNat
      let e := s.callHistory.getD n defaultCallRecord
      if e.answered then
        { callHistory := s.callHistory.set n { e with status := .ended },
          activeCallRecords := active1 }
      else
        { callHistory := s.callHistory.set n { e with status := .missed, missed := true },
          activeCallRecords := active1 }

/-- `_missed_call_entries`: the history records with `missed == true`. -/
def missedCallEntries (s : TrackerState) : List CallRecord :=
  s.callHistory.filter (fun e => e.missed)

/-- The three lifecycle events the tracker reacts to: `RingingToMe`
(via `_handle_call_event` → `_record_incoming_call`), `ConnectedToMe`
(→ `_mark_call_answered`) and `Deleted` (→ `_finalize_call`). -/
inductive CallEvent where
  | ringingToMe (info : RingInfo)
  | connectedToMe (channelId : Int)
  | deleted (channelId : Int)
deriving DecidableEq, Repr

/-- Dispatch of one lifecycle event to its handler. -/
def handleEvent (s : TrackerState) (e : CallEvent) : TrackerState :=
  match e with
  | .ringingToMe info => recordIncomingCall s info
  | .connectedToMe c => markCallAnswered s c
  | .deleted c => finalizeCall s c

/-- Run a sequence of lifecycle events from the empty tracker state. -/
def runEvents (es : List CallEvent) : TrackerState :=
  es.foldl handleEvent initTracker

/-! ### Fuzzy menu filter -/

/-- `s.lower()` modelled per character with `Char.toLower` (ASCII case
mapping).  This is exact for ASCII data; CPython's full `str.lower()`
additionally lowercases non-ASCII letters and applies the context-sensitive
Final_Sigma rule ('Σ' becomes 'ς' at the end of a word) — `pyLowerChars`
below models that rule where it is load-bearing. -/
def lowerChars (s : String) : List Char := s.data.map Char.toLower

/-- `_fuzzy_in_order(haystack, needle)`: `it = iter(haystack);
return all(ch in it for ch in needle)` — each needle character is searched for
in the remaining iterator, consuming up to and including its first match. -/
def fuzzyInOrder : List Char → List Char → Bool
  | _, [] => true
  | [], _ :: _ => false
  | a :: hs, n :: ns => if a = n then fuzzyInOrder hs ns else fuzzyInOrder hs (n :: ns)

/-- The first component of the Python sort key
`(0 if x[1].startswith(q) else 1, x[1])`. -/
def rankOf (q v : List Char) : Nat := if q.isPrefixOf v then 0 else 1

/-- Python string `<=` on the lowercased labels: lexicographic comparison by
code point. -/
def lexLe : List Char → List Char → Bool
  | [], _ => true
  | _ :: _, [] => false
  | a :: as, b :: bs =>
    if a.toNat < b.toNat then true
    else if b.toNat < a.toNat then false
    else lexLe as bs

/-- The total preorder on candidates induced by the Python sort key
`(0 if v.startswith(q) else 1, v)` compared tuple-lexicographically. -/
def candLe (q : List Char) (a b : Nat × List Char) : Bool :=
  if rankOf q a.2 < rankOf q b.2 then true
  else if rankOf q b.2 < rankOf q a.2 then false
  else lexLe a.2 b.2

/-- `candLe` as a decidable relation, for use with the stable sort. -/
def candRel (q : List Char) (a b : Nat × List Char) : Prop := candLe q a b = true

instance (q : List Char) : DecidableRel (candRel q) :=
  fun a b => inferInstanceAs (Decidable (candLe q a b = true))

/-- `_filter_menu_items(items, query)`: empty query returns all indices in
order; otherwise keep the indices whose lowercased label contains the
lowercased query as an in-order subsequence, sorted by the key
`(0 if startswith else 1, lowercased label)`.  Python's `list.sort` is a
stable sort; `List.insertionSort` with the key's non-strict preorder is its
extensional equivalent. -/
def filterMenuItems (items : List String) (query : String) : List Nat :=
  if query = "" then List.range items.length
  else
    (List.insertionSort (candRel (lowerChars query))
      ((items.enum.map (fun p => (p.1, lowerChars p.2))).filter
        (fun p => fuzzyInOrder p.2 (lowerChars query)))).map Prod.fst

/-- Cased letters, for the Final_Sigma context of `str.lower()`: modelled for
the alphabet this development uses — ASCII letters and the Greek letter block
(capitals U+0391..U+03A9 and smalls U+03B1..U+03C9, skipping the unassigned
U+03A2); no case-ignorable characters are in scope. -/
def isCased (ch : Char) : Bool :=
  ch.isAlpha
    ∨ (0x391 ≤ ch.toNat ∧ ch.toNat ≤ 0x3C9 ∧ ch.toNat ≠ 0x3A2)

/-- Context-free part of `str.lower()` for the modelled alphabet: Greek
capitals (other than the contextual 'Σ', handled by `pyLowerAux`) map by the
+32 offset of the Greek block, everything else by ASCII `Char.toLower`. -/
def pyLowerChar (ch : Char) : Char :=
  if 0x391 ≤ ch.toNat ∧ ch.toNat ≤ 0x3A9 ∧ ch.toNat ≠ 0x3A2 ∧ ch.toNat ≠ 0x3A3 then
    Char.ofNat (ch.toNat + 32)
  else ch.toLower

/-- Whether the first character of the remaining input is cased (the
follower test of the Final_Sigma condition, with no case-ignorable
characters in scope). -/
def headCased : List Char → Bool
  | [] => false
  | c2 :: _ => isCased c2

/-- Lowercasing with the Unicode Final_Sigma rule of CPython's `str.lower()`:
'Σ' becomes final 'ς' when preceded by a cased character and not followed by
one, and medial 'σ' otherwise; `prevCased` records whether the previous
character was cased. -/
def pyLowerAux (prevCased : Bool) : List Char → List Char
  | [] => []
  | ch :: rest =>
    if ch.toNat = 0x3A3 then
      (if prevCased && ! headCased rest then 'ς' else 'σ') :: pyLowerAux true rest
    else pyLowerChar ch :: pyLowerAux (isCased ch) rest

/-- `s.lower()` with the context-sensitive Final_Sigma rule, the faithful
model of CPython lowercasing on the modelled alphabet. -/
def pyLowerChars (s : String) : List Char := pyLowerAux false s.data

/-- `_filter_menu_items` with the Final_Sigma-faithful lowercasing: the same
filter-sort pipeline as `filterMenuItems`, differing only in the model of
`str.lower()`. -/
def filterMenuItemsPy (items : List String) (query : String) : List Nat :=
  if query = "" then List.range items.length
  else
    (List.insertionSort (candRel (pyLowerChars query))
      ((items.enum.map (fun p => (p.1, pyLowerChars p.2))).filter
        (fun p => fuzzyInOrder p.2 (pyLowerChars query)))).map Prod.fst

/-! ### Notification center -/

/-- `self._active_notice`: the dict `{"message": ..., "expires_at": ...}`
(`expires_at is None` for a persistent notification).  Monotonic-clock
instants are modelled as rationals. -/
structure Notice where
  message : String
  expiresAt : Option ℚ
deriving DecidableEq, Repr

/-- `_push_notice(message)`: `seconds = max(0.0, call_notify_seconds)`;
`expires_at = None if persistent else now + seconds`; the previous
notification is replaced unconditionally. -/
def pushNotice (persistent : Bool) (notifySeconds : ℚ) (now : ℚ) (msg : String) :
    Option Notice :=
  let seconds := max 0 notifySeconds
  let expiresAt : Option ℚ := if persistent then none else some (now + seconds)
  some { message := msg, expiresAt := expiresAt }

/-- `_current_notice()`: returns `(result, new state)`; a non-persistent
notification read strictly after its expiry is cleared and `None` returned,
otherwise the stored message is returned and the state kept. -/
def currentNotice (st : Option Notice) (now : ℚ) : Option String × Option Notice :=
  match st with
  | none => (none, none)
  | some n =>
    match n.expiresAt with
    | some exp => if exp < now then (none, none) else (some n.message, some n)
    | none => (some n.message, some n)

/-! ### Bounded debug / probe logs -/

/-- One append step of a capacity-`cap` ring buffer:
`buf.append(line); if len(buf) > cap: buf = buf[-cap:]`. -/
def appendCapped (cap : Nat) (buf : List String) (line : String) : List String :=
  let b := buf ++ [line]
  if cap < b.length then b.drop (b.length - cap) else b

/-- The `f"[{ts}] {msg}"` line format shared by `_dbg` and
`_video_probe_event`. -/
def dbgLine (ts msg : String) : String := "[" ++ ts ++ "] " ++ msg

/-- `_dbg`: append the timestamped line to `_debug_lines`, keeping the most
recent 500 entries. -/
def dbgAppend (buf : List String) (ts msg : String) : List String :=
  appendCapped 500 buf (dbgLine ts msg)

/-- `_video_probe_event`: append the timestamped line to
`_video_probe_events`, keeping the most recent 120 entries. -/
def videoProbeAppend (buf : List String) (ts msg : String) : List String :=
  appendCapped 120 buf (dbgLine ts msg)

/-! ### Concrete sample inputs used by witnesses -/

/-- Sample tracker state: one ringing call on channel 5 at history index 0. -/
def w1State : TrackerState :=
  { callHistory := [mkRingRecord ⟨5, "t0", "X", "A"⟩], activeCallRecords := [(5, 0)] }

/-- Sample `RingingToMe` payload for the previously-unseen channel 7. -/
def w1Ring : RingInfo := ⟨7, "t1", "Y", "B"⟩

/-- Sample event sequence: the scenario of spec §8 (ring A on channel 10,
ring B on channel 20, `ConnectedToMe(10)`, `Deleted(20)`). -/
def w2Events : List CallEvent :=
  [ .ringingToMe ⟨10, "t1", "X", "X"⟩, .ringingToMe ⟨20, "t2", "Y", "Y"⟩,
    .connectedToMe 10, .deleted 20 ]

/-- The missed-call record produced for channel 20 by `w2Events`. -/
def w2Record : CallRecord :=
  { ts := "t2", channelId := 20, peer := "Y", fromLabel := "Y",
    status := .missed, answered := false, missed := true }

/-- Sample sequence of 101 `RingingToMe` payloads on distinct channels. -/
def w4Rings : List RingInfo :=
  (List.range 101).map (fun i => ⟨(i : Int), "t", "p", "f"⟩)

/-- Per-record invariant of the call state machine: `missed` and `answered`
are never simultaneously true, and a missed record has status `missed`. -/
def recordInv (e : CallRecord) : Prop :=
  ¬(e.missed = true ∧ e.answered = true) ∧ (e.missed = true → e.status = CallStatus.missed)

/-! ### Association-list lemmas (the `dict[int, int]` has unique keys) -/

theorem lookupA_map_add (m : List (Int × Int)) (c : Int) :
    lookupA (m.map (fun p => (p.1, p.2 + 1))) c = (lookupA m c).map (· + 1) := by
  induction m with
  | nil => rfl
  | cons p rest ih =>
    obtain ⟨k, v⟩ := p
    simp only [List.map_cons, lookupA]
    split <;> simp [ih]

theorem lookupA_eq_none_of_not_mem_keys (m : List (Int × Int)) (c : Int)
    (h : c ∉ m.map Prod.fst) : lookupA m c = none := by
  induction m with
  | nil => rfl
  | cons p rest ih =>
    obtain ⟨k, v⟩ := p
    simp only [List.map_cons, List.mem_cons] at h
    push_neg at h
    simp only [lookupA, if_neg (Ne.symm h.1), ih h.2]

theorem lookupA_filter_none (m : List (Int × Int)) (q : Int × Int → Bool) (c : Int)
    (h : lookupA m c = none) : lookupA (m.filter q) c = none := by
  induction m with
  | nil => rfl
  | cons p rest ih =>
    obtain ⟨k, v⟩ := p
    simp only [lookupA] at h
    by_cases hk : k = c
    · simp [hk] at h
    · rw [List.filter_cons]
      have h2 : lookupA rest c = none := by simpa [hk] using h
      split
      · simp only [lookupA, if_neg hk]
        exact ih h2
      · exact ih h2

theorem lookupA_filter_some (m : List (Int × Int)) (q : Int × Int → Bool) (c v : Int)
    (hn : (m.map Prod.fst).Nodup) (h : lookupA m c = some v) :
    lookupA (m.filter q) c = if q (c, v) then some v else none := by
  induction m with
  | nil => simp [lookupA] at h
  | cons p rest ih =>
    obtain ⟨k, w⟩ := p
    simp only [List.map_cons, List.nodup_cons] at hn
    simp only [lookupA] at h
    by_cases hk : k = c
    · subst hk
      rw [if_pos rfl] at h
      obtain rfl : w = v := by injection h
      rw [List.filter_cons]
      by_cases hq : q (k, w) = true
      · simp [hq, lookupA]
      · rw [if_neg hq]
        simp only [hq, if_false, Bool.false_eq_true]
        exact lookupA_filter_none rest q k
          (lookupA_eq_none_of_not_mem_keys rest k hn.1)
    · have h2 : lookupA rest c = some v := by simpa [hk] using h
      rw [List.filter_cons]
      split
      · simp only [lookupA, if_neg hk]
        exact ih hn.2 h2
      · exact ih hn.2 h2

theorem lookupA_setA_self (m : List (Int × Int)) (k v : Int) :
    lookupA (setA m k v) k = some v := by
  induction m with
  | nil => simp [setA, lookupA]
  | cons p rest ih =>
    obtain ⟨k1, v1⟩ := p
    by_cases hk : k1 = k
    · simp [setA, lookupA, hk]
    · simp [setA, lookupA, hk, ih]

theorem lookupA_setA_ne (m : List (Int × Int)) (k v c : Int) (h : c ≠ k) :
    lookupA (setA m k v) c = lookupA m c := by
  induction m with
  | nil => simp [setA, lookupA, Ne.symm h]
  | cons p rest ih =>
    obtain ⟨k1, v1⟩ := p
    by_cases hk : k1 = k
    · subst hk
      simp [setA, lookupA, Ne.symm h]
    · rw [show setA ((k1, v1) :: rest) k v = (k1, v1) :: setA rest k v from by
        simp [setA, hk]]
      simp only [lookupA]
      split
      · rfl
      · exact ih

/-! ### C1 -/

/-- C1: handling a `RingingToMe` event for a previously-unseen channel
(i) shifts every existing `ActiveCallIndex` value by +1 and (iv) drops any
entry whose shifted value exceeds the truncated history's last valid index
(third conjunct); (ii) inserts a fresh record with status `ringing`,
`answered = false`, `missed = false` at the front of `CallHistory` and
(iii) truncates it to capacity 100 (first conjunct); and (v) finally maps
the new channel to index 0 (second conjunct). -/
theorem ringingToMe_unseen_spec (s : TrackerState) (r : RingInfo)
    (hkeys : (s.activeCallRecords.map Prod.fst).Nodup)
    (hnew : lookupA s.activeCallRecords r.channelId = none) :
    (handleEvent s (.ringingToMe r)).callHistory =
      ({ ts := r.ts, channelId := r.channelId, peer := r.peer, fromLabel := r.fromLabel,
         status := .ringing, answered := false, missed := false } :: s.callHistory).take 100
    ∧ lookupA (handleEvent s (.ringingToMe r)).activeCallRecords r.channelId = some 0
    ∧ ∀ c idx, lookupA s.activeCallRecords c = some idx →
        lookupA (handleEvent s (.ringingToMe r)).activeCallRecords c =
          if idx + 1 ≤ ((handleEvent s (.ringingToMe r)).callHistory.length : Int) - 1
          then some (idx + 1) else none := by
  refine ⟨rfl, lookupA_setA_self _ r.channelId 0, ?_⟩
  intro c idx h
  have hne : c ≠ r.channelId := by
    intro e
    rw [e, hnew] at h
    exact Option.noConfusion h
  simp only [handleEvent, recordIncomingCall]
  rw [lookupA_setA_ne _ _ _ _ hne]
  rw [lookupA_filter_some _ _ c (idx + 1)
    (by simpa [List.map_map, Function.comp] using hkeys)
    (by rw [lookupA_map_add, h]; rfl)]
  by_cases hle :
      idx + 1 ≤ (((mkRingRecord r :: s.callHistory).take 100).length : Int) - 1
  · rw [if_pos (by simpa [Int.not_lt] using hle), if_pos hle]
  · rw [if_neg (by simpa [Int.not_lt] using hle), if_neg hle]

/-! ### List helper lemmas for in-place record updates -/

theorem getD_set_self (l : List CallRecord) (n : Nat) (a d : CallRecord)
    (h : n < l.length) : (l.set n a).getD n d = a := by
  rw [List.getD_eq_getElem _ _ (by simpa using h)]
  exact List.getElem_set_self _

theorem getD_mem (l : List CallRecord) (n : Nat) (d : CallRecord)
    (h : n < l.length) : l.getD n d ∈ l := by
  rw [List.getD_eq_getElem _ _ h]
  exact List.getElem_mem h

theorem getElem?D_set_self (l : List CallRecord) (n : Nat) (a d : CallRecord)
    (h : n < l.length) : ((l.set n a)[n]?).getD d = a := by
  rw [List.getElem?_eq_getElem (by simpa using h), Option.getD_some,
    List.getElem_set_self]

/-! ### Unfolding lemmas for the three handlers -/

theorem markCallAnswered_eq_inBounds (H : List CallRecord) (A : List (Int × Int))
    (c idx : Int) (hlk : lookupA A c = some idx) (h0 : 0 ≤ idx)
    (hlt : idx < (H.length : Int)) :
    markCallAnswered ⟨H, A⟩ c =
      ⟨H.set idx.toNat
        { H.getD idx.toNat defaultCallRecord with
          answered := true, status := .answered, missed := false }, A⟩ := by
  have hnb : ¬(idx < 0 ∨ (H.length : Int) ≤ idx) := by omega
  simp only [markCallAnswered, hlk, if_neg hnb]

theorem markCallAnswered_eq_none (s : TrackerState) (c : Int)
    (hlk : lookupA s.activeCallRecords c = none) :
    markCallAnswered s c = s := by
  simp only [markCallAnswered, hlk]

theorem markCallAnswered_eq_oob (s : TrackerState) (c idx : Int)
    (hlk : lookupA s.activeCallRecords c = some idx)
    (hb : idx < 0 ∨ (s.callHistory.length : Int) ≤ idx) :
    markCallAnswered s c = s := by
  simp only [markCallAnswered, hlk, if_pos hb]

theorem finalizeCall_eq_none (s : TrackerState) (c : Int)
    (hlk : lookupA s.activeCallRecords c = none) :
    finalizeCall s c = s := by
  simp only [finalizeCall, hlk]

theorem finalizeCall_eq_oob (s : TrackerState) (c idx : Int)
    (hlk : lookupA s.activeCallRecords c = some idx)
    (hb : idx < 0 ∨ (s.callHistory.length : Int) ≤ idx) :
    finalizeCall s c = { s with activeCallRecords := eraseA s.activeCallRecords c } := by
  simp only [finalizeCall, hlk, if_pos hb]

theorem finalizeCall_eq_answered (H : List CallRecord) (A : List (Int × Int))
    (c idx : Int) (hlk : lookupA A c = some idx) (h0 : 0 ≤ idx)
    (hlt : idx < (H.length : Int))
    (ha : (H.getD idx.toNat defaultCallRecord).answered = true) :
    finalizeCall ⟨H, A⟩ c =
      ⟨H.set idx.toNat
        { H.getD idx.toNat defaultCallRecord with status := .ended }, eraseA A c⟩ := by
  have hnb : ¬(idx < 0 ∨ (H.length : Int) ≤ idx) := by omega
  simp only [finalizeCall, hlk, if_neg hnb, ha, if_pos]

theorem finalizeCall_eq_unanswered (H : List CallRecord) (A : List (Int × Int))
    (c idx : Int) (hlk : lookupA A c = some idx) (h0 : 0 ≤ idx)
    (hlt : idx < (H.length : Int))
    (ha : (H.getD idx.toNat defaultCallRecord).answered = false) :
    finalizeCall ⟨H, A⟩ c =
      ⟨H.set idx.toNat
        { H.getD idx.toNat defaultCallRecord with
          status := .missed, missed := true }, eraseA A c⟩ := by
  have hnb : ¬(idx < 0 ∨ (H.length : Int) ≤ idx) := by omega
  simp only [finalizeCall, hlk, if_neg hnb, ha]
  simp

/-! ### C2 helper: each event handler preserves the per-record invariant -/

theorem handleEvent_preserves_recordInv (s : TrackerState) (ev : CallEvent)
    (h : ∀ e ∈ s.callHistory, recordInv e) :
    ∀ e ∈ (handleEvent s ev).callHistory, recordInv e := by
  cases ev with
  | ringingToMe r =>
    intro e he
    simp only [handleEvent, recordIncomingCall] at he
    rcases List.mem_cons.mp (List.take_subset _ _ he) with rfl | hmem
    · exact ⟨by simp [mkRingRecord], by simp [mkRingRecord]⟩
    · exact h e hmem
  | connectedToMe c =>
    intro e he
    cases hl : lookupA s.activeCallRecords c with
    | none =>
      simp only [handleEvent, markCallAnswered, hl] at he
      exact h e he
    | some idx =>
      by_cases hb : idx < 0 ∨ (s.callHistory.length : Int) ≤ idx
      · simp only [handleEvent, markCallAnswered, hl, if_pos hb] at he
        exact h e he
      · simp only [handleEvent, markCallAnswered, hl, if_neg hb] at he
        rcases List.mem_or_eq_of_mem_set he with hmem | rfl
        · exact h e hmem
        · exact ⟨by simp, by simp⟩
  | deleted c =>
    intro e he
    cases hl : lookupA s.activeCallRecords c with
    | none =>
      simp only [handleEvent, finalizeCall, hl] at he
      exact h e he
    | some idx =>
      by_cases hb : idx < 0 ∨ (s.callHistory.length : Int) ≤ idx
      · simp only [handleEvent, finalizeCall, hl, if_pos hb] at he
        exact h e he
      · have hn : idx.toNat < s.callHistory.length := by omega
        have hmemD : s.callHistory.getD idx.toNat defaultCallRecord ∈ s.callHistory :=
          getD_mem _ _ _ hn
        by_cases ha : (s.callHistory.getD idx.toNat defaultCallRecord).answered = true
        · simp only [handleEvent, finalizeCall, hl, if_neg hb, ha, if_pos rfl] at he
          rcases List.mem_or_eq_of_mem_set he with hmem | rfl
          · exact h e hmem
          · have hrec := h _ hmemD
            refine ⟨fun hb2 => hrec.1 ⟨hb2.1, ha⟩, fun hm => absurd ⟨hm, ha⟩ hrec.1⟩
        · rw [show (handleEvent s (.deleted c)).callHistory =
              s.callHistory.set idx.toNat
                { s.callHistory.getD idx.toNat defaultCallRecord with
                  status := .missed, missed := true } from by
            simp only [handleEvent, finalizeCall, hl, if_neg hb]
            rw [if_neg ha]] at he
          rcases List.mem_or_eq_of_mem_set he with hmem | rfl
          · exact h e hmem
          · refine ⟨fun hb2 => ?_, fun _ => rfl⟩
            have := h _ hmemD
            exact ha hb2.2

/-- C2: for every sequence of lifecycle events applied from the empty tracker
state, no history record ever has `missed` and `answered` simultaneously true,
and `missed = true` forces status `missed`. -/
theorem runEvents_recordInv (es : List CallEvent) :
    ∀ e ∈ (runEvents es).callHistory,
      ¬(e.missed = true ∧ e.answered = true)
      ∧ (e.missed = true → e.status = CallStatus.missed) := by
  have hgen : ∀ (l : List CallEvent) (s : TrackerState),
      (∀ e ∈ s.callHistory, recordInv e) →
      ∀ e ∈ (l.foldl handleEvent s).callHistory, recordInv e := by
    intro l
    induction l with
    | nil => intro s hs; simpa using hs
    | cons ev rest ih =>
      intro s hs
      exact ih _ (handleEvent_preserves_recordInv s ev hs)
  intro e he
  exact hgen es initTracker (by simp [initTracker]) e he

/-- Witness for C2 on the spec §8 scenario: the missed record for channel 20. -/
theorem runEvents_recordInv_witness :
    ¬(w2Record.missed = true ∧ w2Record.answered = true)
    ∧ (w2Record.missed = true → w2Record.status = CallStatus.missed) :=
  runEvents_recordInv w2Events w2Record (by decide)

/-- Witness for C1 at a concrete state and event. -/
theorem ringingToMe_unseen_spec_witness :
    (handleEvent w1State (.ringingToMe w1Ring)).callHistory =
      ({ ts := w1Ring.ts, channelId := w1Ring.channelId, peer := w1Ring.peer,
         fromLabel := w1Ring.fromLabel,
         status := .ringing, answered := false, missed := false } ::
        w1State.callHistory).take 100
    ∧ lookupA (handleEvent w1State (.ringingToMe w1Ring)).activeCallRecords
        w1Ring.channelId = some 0
    ∧ ∀ c idx, lookupA w1State.activeCallRecords c = some idx →
        lookupA (handleEvent w1State (.ringingToMe w1Ring)).activeCallRecords c =
          if idx + 1 ≤ ((handleEvent w1State (.ringingToMe w1Ring)).callHistory.length : Int) - 1
          then some (idx + 1) else none :=
  ringingToMe_unseen_spec w1State w1Ring (by decide) (by decide)

/-! ### C3 -/

/-- C3: for a call whose active entry is present and in bounds, handling
`ConnectedToMe` and then `Deleted` finalizes the record with status `ended`;
handling `Deleted` while the record is still unanswered finalizes it with
status `missed`, `missed = true`, and the record appears in the
missed-entries query. -/
theorem call_finalization_spec (s : TrackerState) (c idx : Int)
    (hlk : lookupA s.activeCallRecords c = some idx)
    (h0 : 0 ≤ idx) (hlt : idx < (s.callHistory.length : Int)) :
    ((handleEvent (handleEvent s (.connectedToMe c)) (.deleted c)).callHistory.getD
        idx.toNat defaultCallRecord).status = CallStatus.ended
    ∧ ((s.callHistory.getD idx.toNat defaultCallRecord).answered = false →
        ((handleEvent s (.deleted c)).callHistory.getD idx.toNat defaultCallRecord).status
            = CallStatus.missed
        ∧ ((handleEvent s (.deleted c)).callHistory.getD idx.toNat defaultCallRecord).missed
            = true
        ∧ (handleEvent s (.deleted c)).callHistory.getD idx.toNat defaultCallRecord
            ∈ missedCallEntries (handleEvent s (.deleted c))) := by
  obtain ⟨H, A⟩ := s
  have hlk' : lookupA A c = some idx := hlk
  have hlt' : idx < (H.length : Int) := hlt
  have hn : idx.toNat < H.length := by omega
  simp only [handleEvent]
  constructor
  · obtain ⟨e1, ha1, he1⟩ : ∃ e1, e1.answered = true ∧
        markCallAnswered ⟨H, A⟩ c = ⟨H.set idx.toNat e1, A⟩ :=
      ⟨_, rfl, markCallAnswered_eq_inBounds H A c idx hlk' h0 hlt'⟩
    rw [he1]
    have hn1 : idx.toNat < (H.set idx.toNat e1).length := by
      rw [List.length_set]
      exact hn
    have hlt1 : idx < ((H.set idx.toNat e1).length : Int) := by
      rw [List.length_set]
      exact hlt'
    have hgd1 : (H.set idx.toNat e1).getD idx.toNat defaultCallRecord = e1 :=
      getD_set_self _ _ _ _ hn
    rw [finalizeCall_eq_answered (H.set idx.toNat e1) A c idx hlk' h0 hlt1
      (by rw [hgd1]; exact ha1)]
    simp [getElem?D_set_self _ _ _ _ hn1, getElem?D_set_self _ _ _ _ hn]
  · intro ha
    have ha' : (H.getD idx.toNat defaultCallRecord).answered = false := ha
    rw [finalizeCall_eq_unanswered H A c idx hlk' h0 hlt' ha']
    have hn' : idx.toNat < (H.set idx.toNat
        { H.getD idx.toNat defaultCallRecord with
          status := CallStatus.missed, missed := true }).length := by
      rw [List.length_set]
      exact hn
    refine ⟨?_, ?_, ?_⟩
    · simp [getElem?D_set_self _ _ _ _ hn]
    · simp [getElem?D_set_self _ _ _ _ hn]
    · simp only [missedCallEntries, getD_set_self _ _ _ _ hn]
      refine List.mem_filter.mpr ⟨?_, rfl⟩
      have hm := getD_mem (H.set idx.toNat
        { H.getD idx.toNat defaultCallRecord with
          status := CallStatus.missed, missed := true }) idx.toNat defaultCallRecord hn'
      rw [getD_set_self _ _ _ _ hn] at hm
      exact hm

/-- Witness for C3 at the concrete state `w1State` (channel 5 at index 0,
record unanswered). -/
theorem call_finalization_spec_witness :
    ((handleEvent (handleEvent w1State (.connectedToMe 5)) (.deleted 5)).callHistory.getD
        (0 : Int).toNat defaultCallRecord).status = CallStatus.ended
    ∧ ((w1State.callHistory.getD (0 : Int).toNat defaultCallRecord).answered = false →
        ((handleEvent w1State (.deleted 5)).callHistory.getD
            (0 : Int).toNat defaultCallRecord).status = CallStatus.missed
        ∧ ((handleEvent w1State (.deleted 5)).callHistory.getD
            (0 : Int).toNat defaultCallRecord).missed = true
        ∧ (handleEvent w1State (.deleted 5)).callHistory.getD
            (0 : Int).toNat defaultCallRecord
            ∈ missedCallEntries (handleEvent w1State (.deleted 5))) :=
  call_finalization_spec w1State 5 0 (by decide) (by decide) (by decide)

/-! ### C5 -/

/-- C5: a `ConnectedToMe` or `Deleted` event whose channel has no
`ActiveCallIndex` entry, or whose stored index is out of the current history
bounds, leaves `CallHistory` unchanged — no record is created or mutated (the
handlers are total functions of the embedding, mirroring that the Python code
raises no exception on these paths); in particular a `Deleted` event for a
never-seen channel leaves `CallHistory` unchanged. -/
theorem stale_event_noop (s : TrackerState) (c : Int)
    (hst : lookupA s.activeCallRecords c = none
      ∨ ∃ idx, lookupA s.activeCallRecords c = some idx
          ∧ (idx < 0 ∨ (s.callHistory.length : Int) ≤ idx)) :
    (handleEvent s (.connectedToMe c)).callHistory = s.callHistory
    ∧ (handleEvent s (.deleted c)).callHistory = s.callHistory := by
  simp only [handleEvent]
  rcases hst with hnone | ⟨idx, hlk, hb⟩
  · rw [markCallAnswered_eq_none s c hnone, finalizeCall_eq_none s c hnone]
    exact ⟨rfl, rfl⟩
  · rw [markCallAnswered_eq_oob s c idx hlk hb, finalizeCall_eq_oob s c idx hlk hb]
    exact ⟨rfl, rfl⟩

/-- Witness for C5: channel 99 was never seen by `w1State`. -/
theorem stale_event_noop_witness :
    (handleEvent w1State (.connectedToMe 99)).callHistory = w1State.callHistory
    ∧ (handleEvent w1State (.deleted 99)).callHistory = w1State.callHistory :=
  stale_event_noop w1State 99 (Or.inl (by decide))

/-! ### C4 -/

theorem foldl_ring_history (rs : List RingInfo) (s : TrackerState)
    (hs : s.callHistory.length ≤ 100) :
    ((rs.map CallEvent.ringingToMe).foldl handleEvent s).callHistory =
      ((rs.map mkRingRecord).reverse ++ s.callHistory).take 100 := by
  have key : ∀ (A : List CallRecord) (x : CallRecord) (H : List CallRecord),
      (A ++ (x :: H).take 100).take 100 = (A ++ x :: H).take 100 := by
    intro A x H
    rw [List.take_append_eq_append_take, List.take_append_eq_append_take,
      List.take_take, Nat.min_eq_left (Nat.sub_le 100 A.length)]
  induction rs generalizing s with
  | nil => simp only [List.map_nil, List.foldl_nil, List.reverse_nil, List.nil_append]
           exact (List.take_of_length_le hs).symm
  | cons r rest ih =>
    simp only [List.map_cons, List.foldl_cons, List.reverse_cons]
    rw [ih _ (by
      rw [show (handleEvent s (CallEvent.ringingToMe r)).callHistory
          = (mkRingRecord r :: s.callHistory).take 100 from rfl]
      simp)]
    rw [show (handleEvent s (CallEvent.ringingToMe r)).callHistory
        = (mkRingRecord r :: s.callHistory).take 100 from rfl]
    rw [List.append_assoc, List.singleton_append]
    exact key _ _ _

/-- C4: applying any sequence of `RingingToMe` events on distinct
previously-unseen channels from the empty state leaves `CallHistory` equal to
the records of the (at most) 100 most recent events, most-recent-first; with
more than 100 events the length is exactly 100, with at most 100 events it
equals the number of events. -/
theorem ring_sequence_capacity (rs : List RingInfo)
    (_hdist : (rs.map RingInfo.channelId).Nodup) :
    (runEvents (rs.map CallEvent.ringingToMe)).callHistory
        = (rs.map mkRingRecord).reverse.take 100
    ∧ (100 < rs.length →
        (runEvents (rs.map CallEvent.ringingToMe)).callHistory.length = 100)
    ∧ (rs.length ≤ 100 →
        (runEvents (rs.map CallEvent.ringingToMe)).callHistory.length = rs.length) := by
  have h1 : (runEvents (rs.map CallEvent.ringingToMe)).callHistory
      = (rs.map mkRingRecord).reverse.take 100 := by
    rw [runEvents, foldl_ring_history rs initTracker (by simp [initTracker])]
    simp [initTracker]
  refine ⟨h1, ?_, ?_⟩
  · intro hgt
    rw [h1, List.length_take, List.length_reverse, List.length_map]
    omega
  · intro hle
    rw [h1, List.length_take, List.length_reverse, List.length_map]
    omega

/-! ### Fuzzy-filter lemmas -/

theorem fuzzy_iff_sublist (h : List Char) : ∀ n : List Char,
    fuzzyInOrder h n = true ↔ List.Sublist n h := by
  induction h with
  | nil =>
    intro n
    cases n with
    | nil => simp [fuzzyInOrder]
    | cons c cs => simp [fuzzyInOrder, List.sublist_nil]
  | cons a hs ih =>
    intro n
    cases n with
    | nil => simp [fuzzyInOrder]
    | cons c cs =>
      by_cases hac : a = c
      · subst hac
        rw [show fuzzyInOrder (a :: hs) (a :: cs) = fuzzyInOrder hs cs from by
          simp [fuzzyInOrder]]
        rw [ih cs, List.cons_sublist_cons]
      · rw [show fuzzyInOrder (a :: hs) (c :: cs) = fuzzyInOrder hs (c :: cs) from by
          simp [fuzzyInOrder, hac]]
        rw [ih (c :: cs)]
        constructor
        · intro hsub
          exact List.Sublist.cons a hsub
        · intro hsub
          cases hsub with
          | cons _ h2 => exact h2
          | cons₂ _ h2 => exact absurd rfl hac

theorem lexLe_cons (x y : Char) (xs ys : List Char) :
    lexLe (x :: xs) (y :: ys) =
      (if x.toNat < y.toNat then true
       else if y.toNat < x.toNat then false else lexLe xs ys) := rfl

theorem lexLe_total (a : List Char) : ∀ b, lexLe a b = true ∨ lexLe b a = true := by
  induction a with
  | nil => intro b; left; rfl
  | cons x xs ih =>
    intro b
    cases b with
    | nil => right; rfl
    | cons y ys =>
      rcases Nat.lt_trichotomy x.toNat y.toNat with h | h | h
      · left
        rw [lexLe_cons, if_pos h]
      · have h1 : ¬ x.toNat < y.toNat := by omega
        have h2 : ¬ y.toNat < x.toNat := by omega
        rw [lexLe_cons, lexLe_cons, if_neg h1, if_neg h2, if_neg h2, if_neg h1]
        exact ih ys
      · right
        rw [lexLe_cons, if_pos h]

theorem lexLe_trans (a : List Char) : ∀ b c, lexLe a b = true → lexLe b c = true →
    lexLe a c = true := by
  induction a with
  | nil => intro b c _ _; rfl
  | cons x xs ih =>
    intro b c hab hbc
    cases b with
    | nil => simp [lexLe] at hab
    | cons y ys =>
      cases c with
      | nil => simp [lexLe] at hbc
      | cons z zs =>
        rw [lexLe_cons] at hab hbc ⊢
        rcases Nat.lt_trichotomy x.toNat y.toNat with hxy | hxy | hxy
        · rcases Nat.lt_trichotomy y.toNat z.toNat with hyz | hyz | hyz
          · rw [if_pos (by omega)]
          · rw [if_pos (by omega)]
          · rw [if_neg (by omega), if_pos (by omega)] at hbc
            exact absurd hbc (by simp)
        · rcases Nat.lt_trichotomy y.toNat z.toNat with hyz | hyz | hyz
          · rw [if_pos (by omega)]
          · rw [if_neg (by omega), if_neg (by omega)] at hab
            rw [if_neg (by omega), if_neg (by omega)] at hbc
            rw [if_neg (by omega), if_neg (by omega)]
            exact ih ys zs hab hbc
          · rw [if_neg (by omega), if_pos (by omega)] at hbc
            exact absurd hbc (by simp)
        · rw [if_neg (by omega), if_pos (by omega)] at hab
          exact absurd hab (by simp)

theorem candLe_total (q : List Char) (a b : Nat × List Char) :
    candLe q a b = true ∨ candLe q b a = true := by
  unfold candLe
  rcases Nat.lt_trichotomy (rankOf q a.2) (rankOf q b.2) with h | h | h
  · left
    rw [if_pos h]
  · rcases lexLe_total a.2 b.2 with h2 | h2
    · left
      rw [if_neg (by omega), if_neg (by omega)]
      exact h2
    · right
      rw [if_neg (by omega), if_neg (by omega)]
      exact h2
  · right
    rw [if_pos h]

theorem candLe_trans (q : List Char) (a b c : Nat × List Char)
    (h1 : candLe q a b = true) (h2 : candLe q b c = true) : candLe q a c = true := by
  unfold candLe at h1 h2 ⊢
  rcases Nat.lt_trichotomy (rankOf q a.2) (rankOf q b.2) with hab | hab | hab <;>
    rcases Nat.lt_trichotomy (rankOf q b.2) (rankOf q c.2) with hbc | hbc | hbc
  · rw [if_pos (by omega)]
  · rw [if_pos (by omega)]
  · rw [if_neg (by omega), if_pos (by omega)] at h2
    exact absurd h2 (by simp)
  · rw [if_pos (by omega)]
  · rw [if_neg (by omega), if_neg (by omega)] at h1
    rw [if_neg (by omega), if_neg (by omega)] at h2
    rw [if_neg (by omega), if_neg (by omega)]
    exact lexLe_trans a.2 b.2 c.2 h1 h2
  · rw [if_neg (by omega), if_pos (by omega)] at h2
    exact absurd h2 (by simp)
  · rw [if_neg (by omega), if_pos (by omega)] at h1
    exact absurd h1 (by simp)
  · rw [if_neg (by omega), if_pos (by omega)] at h1
    exact absurd h1 (by simp)
  · rw [if_neg (by omega), if_pos (by omega)] at h1
    exact absurd h1 (by simp)

theorem mem_candidates_iff (items : List String) (qc : List Char) (i : Nat)
    (v : List Char) :
    (i, v) ∈ (items.enum.map (fun p => (p.1, lowerChars p.2))).filter
        (fun p => fuzzyInOrder p.2 qc) ↔
      ∃ h : i < items.length,
        v = lowerChars (items.get ⟨i, h⟩) ∧ fuzzyInOrder v qc = true := by
  rw [List.mem_filter]
  constructor
  · rintro ⟨hmem, hpred⟩
    rcases List.mem_map.mp hmem with ⟨⟨j, x⟩, ha, hfa⟩
    rw [List.mk_mem_enum_iff_getElem?] at ha
    rcases List.getElem?_eq_some.mp ha with ⟨hlt, hx⟩
    have hji : j = i := congrArg Prod.fst hfa
    subst hji
    have hvx : lowerChars x = v := congrArg Prod.snd hfa
    refine ⟨hlt, ?_, hpred⟩
    rw [← hvx, List.get_eq_getElem, hx]
  · rintro ⟨hlt, hval, hpred⟩
    refine ⟨?_, hpred⟩
    apply List.mem_map.mpr
    refine ⟨(i, items.get ⟨i, hlt⟩), ?_, ?_⟩
    · rw [List.mk_mem_enum_iff_getElem?, List.getElem?_eq_some]
      exact ⟨hlt, by rw [List.get_eq_getElem]⟩
    · rw [hval]

theorem mem_filterMenuItems (items : List String) (query : String)
    (hq : ¬ query = "") (i : Nat) :
    i ∈ filterMenuItems items query ↔
      ∃ h : i < items.length,
        fuzzyInOrder (lowerChars (items.get ⟨i, h⟩)) (lowerChars query) = true := by
  rw [filterMenuItems, if_neg hq]
  constructor
  · intro hi
    rcases List.mem_map.mp hi with ⟨⟨pi, pv⟩, hp, hpi⟩
    obtain rfl : pi = i := hpi
    have hp2 := (List.mem_insertionSort _).mp hp
    rcases (mem_candidates_iff items (lowerChars query) pi pv).mp hp2 with ⟨hlt, hv, hfz⟩
    refine ⟨hlt, ?_⟩
    rw [← hv]
    exact hfz
  · rintro ⟨hlt, hfz⟩
    apply List.mem_map.mpr
    refine ⟨(i, lowerChars (items.get ⟨i, hlt⟩)), ?_, rfl⟩
    apply (List.mem_insertionSort _).mpr
    exact (mem_candidates_iff items (lowerChars query) i _).mpr ⟨hlt, rfl, hfz⟩

theorem pairwise_filterMenuItems (items : List String) (query : String)
    (hq : ¬ query = "") :
    (filterMenuItems items query).Pairwise (fun i j =>
      rankOf (lowerChars query) (lowerChars (items.getD i "")) <
          rankOf (lowerChars query) (lowerChars (items.getD j ""))
      ∨ (rankOf (lowerChars query) (lowerChars (items.getD i ""))
            = rankOf (lowerChars query) (lowerChars (items.getD j ""))
          ∧ lexLe (lowerChars (items.getD i "")) (lowerChars (items.getD j ""))
              = true)) := by
  rw [filterMenuItems, if_neg hq, List.pairwise_map]
  haveI : IsTotal (Nat × List Char) (candRel (lowerChars query)) :=
    ⟨fun a b => candLe_total (lowerChars query) a b⟩
  haveI : IsTrans (Nat × List Char) (candRel (lowerChars query)) :=
    ⟨fun a b c => candLe_trans (lowerChars query) a b c⟩
  have hs := List.sorted_insertionSort (candRel (lowerChars query))
    ((items.enum.map (fun p => (p.1, lowerChars p.2))).filter
      (fun p => fuzzyInOrder p.2 (lowerChars query)))
  refine List.Pairwise.imp_of_mem ?_ hs
  intro a b ha hb hab
  obtain ⟨ai, av⟩ := a
  obtain ⟨bi, bv⟩ := b
  have ha2 := (List.mem_insertionSort _).mp ha
  have hb2 := (List.mem_insertionSort _).mp hb
  rcases (mem_candidates_iff items _ ai av).mp ha2 with ⟨halt, hav, _⟩
  rcases (mem_candidates_iff items _ bi bv).mp hb2 with ⟨hblt, hbv, _⟩
  have hga : lowerChars (items.getD ai "") = av := by
    rw [List.getD_eq_getElem _ _ halt, hav, List.get_eq_getElem]
  have hgb : lowerChars (items.getD bi "") = bv := by
    rw [List.getD_eq_getElem _ _ hblt, hbv, List.get_eq_getElem]
  rw [hga, hgb]
  have hab2 : (if rankOf (lowerChars query) av < rankOf (lowerChars query) bv then true
      else if rankOf (lowerChars query) bv < rankOf (lowerChars query) av then false
      else lexLe av bv) = true := hab
  rcases Nat.lt_trichotomy (rankOf (lowerChars query) av)
      (rankOf (lowerChars query) bv) with h | h | h
  · exact Or.inl h
  · right
    refine ⟨h, ?_⟩
    rw [if_neg (by omega), if_neg (by omega)] at hab2
    exact hab2
  · rw [if_neg (by omega), if_pos (by omega)] at hab2
    exact absurd hab2 (by simp)

/-! ### C6 -/

/-- C6: the menu filter returns every index in original order for the empty
query; for a non-empty query an index is kept iff the lowercased query is an
in-order (not necessarily contiguous) subsequence of the lowercased label;
the output is ordered by the key (prefix matches first, then alphabetical by
lowercased label within each rank); and on the spec §8 scenario the query
`"gl"` ranks `"Glance"` before `"Guild"` and excludes `"Back"`. -/
theorem filter_menu_spec (items : List String) (query : String) :
    (query = "" → filterMenuItems items query = List.range items.length)
    ∧ (¬ query = "" → ∀ i : Nat, i ∈ filterMenuItems items query ↔
        ∃ h : i < items.length,
          List.Sublist (lowerChars query) (lowerChars (items.get ⟨i, h⟩)))
    ∧ (¬ query = "" → (filterMenuItems items query).Pairwise (fun i j =>
        rankOf (lowerChars query) (lowerChars (items.getD i "")) <
            rankOf (lowerChars query) (lowerChars (items.getD j ""))
        ∨ (rankOf (lowerChars query) (lowerChars (items.getD i ""))
              = rankOf (lowerChars query) (lowerChars (items.getD j ""))
            ∧ lexLe (lowerChars (items.getD i "")) (lowerChars (items.getD j ""))
                = true)))
    ∧ filterMenuItems ["Guild", "Glance", "Back"] "gl" = [1, 0] := by
  refine ⟨?_, ?_, pairwise_filterMenuItems items query, ?_⟩
  · intro h
    rw [filterMenuItems, if_pos h]
  · intro hq i
    rw [mem_filterMenuItems items query hq i]
    constructor
    · rintro ⟨h, hf⟩
      exact ⟨h, (fuzzy_iff_sublist _ _).mp hf⟩
    · rintro ⟨h, hs⟩
      exact ⟨h, (fuzzy_iff_sublist _ _).mpr hs⟩
  · decide

/-- Witness for C6 at the spec §8 scenario inputs. -/
theorem filter_menu_spec_witness :
    (∀ i : Nat, i ∈ filterMenuItems ["Guild", "Glance", "Back"] "gl" ↔
      ∃ h : i < (["Guild", "Glance", "Back"] : List String).length,
        List.Sublist (lowerChars "gl")
          (lowerChars ((["Guild", "Glance", "Back"] : List String).get ⟨i, h⟩)))
    ∧ filterMenuItems ["Guild", "Glance", "Back"] "gl" = [1, 0] :=
  ⟨(filter_menu_spec ["Guild", "Glance", "Back"] "gl").2.1 (by decide),
   (filter_menu_spec ["Guild", "Glance", "Back"] "gl").2.2.2⟩

/-! ### C7 -/

/-- C7 counterexample: under CPython's `str.lower()` the Final_Sigma rule
makes narrowing fail — `"ΑΣ".lower() = "ας"` matches nothing in `["ασα"]`
(the item has a medial 'σ', not a final 'ς'), while appending 'Α' gives
`"ΑΣΑ".lower() = "ασα"`, which matches: the count grows from 0 to 1, so the
result count of the extended query exceeds that of the shorter one. -/
theorem filter_menu_narrowing_cex :
    ("ΑΣ".push 'Α') = "ΑΣΑ"
    ∧ (filterMenuItemsPy ["ασα"] "ΑΣ").length = 0
    ∧ (filterMenuItemsPy ["ασα"] ("ΑΣ".push 'Α')).length = 1
    ∧ ¬ ((filterMenuItemsPy ["ασα"] ("ΑΣ".push 'Α')).length
          ≤ (filterMenuItemsPy ["ασα"] "ΑΣ").length) := by decide

/-- C7 (amended): the menu filter is a pure function (re-running the same
query yields the same result), and appending a character to the query never
increases the number of returned indices provided the lowercased query stays
an in-order subsequence of the lowercased extended query — true in particular
for ASCII queries, and exactly the condition the Final_Sigma rule violates. -/
theorem filter_menu_narrowing_amended (items : List String) (query : String)
    (c : Char)
    (hmono : List.Sublist (pyLowerChars query) (pyLowerChars (query.push c))) :
    filterMenuItemsPy items query = filterMenuItemsPy items query
    ∧ (filterMenuItemsPy items (query.push c)).length
        ≤ (filterMenuItemsPy items query).length := by
  refine ⟨rfl, ?_⟩
  have hpush : ¬ (query.push c) = "" := by
    intro h
    have h2 : (query.push c).data = ([] : List Char) := by rw [h]
    rw [show (query.push c).data = query.data ++ [c] from rfl] at h2
    exact absurd h2 (by simp)
  by_cases hq : query = ""
  · subst hq
    rw [filterMenuItemsPy, if_neg hpush, filterMenuItemsPy, if_pos rfl]
    rw [List.length_map, List.length_insertionSort, List.length_range]
    refine le_trans (List.length_filter_le _ _) ?_
    rw [List.length_map, List.enum_length]
  · rw [filterMenuItemsPy, if_neg hpush, filterMenuItemsPy, if_neg hq]
    rw [List.length_map, List.length_map, List.length_insertionSort,
      List.length_insertionSort]
    apply List.Sublist.length_le
    apply List.monotone_filter_right
    intro p hp
    simp only [fuzzy_iff_sublist] at hp ⊢
    exact List.Sublist.trans hmono hp

/-- Witness for the amended C7 at an ASCII query, where the subsequence
hypothesis holds. -/
theorem filter_menu_narrowing_amended_witness :
    filterMenuItemsPy ["Guild", "Glance", "Back"] "g"
        = filterMenuItemsPy ["Guild", "Glance", "Back"] "g"
    ∧ (filterMenuItemsPy ["Guild", "Glance", "Back"] ("g".push 'l')).length
        ≤ (filterMenuItemsPy ["Guild", "Glance", "Back"] "g").length :=
  filter_menu_narrowing_amended ["Guild", "Glance", "Back"] "g" 'l' (by decide)

/-- Witness for C4 on 101 distinct-channel ring events. -/
theorem ring_sequence_capacity_witness :
    (runEvents (w4Rings.map CallEvent.ringingToMe)).callHistory
        = (w4Rings.map mkRingRecord).reverse.take 100
    ∧ (100 < w4Rings.length →
        (runEvents (w4Rings.map CallEvent.ringingToMe)).callHistory.length = 100)
    ∧ (w4Rings.length ≤ 100 →
        (runEvents (w4Rings.map CallEvent.ringingToMe)).callHistory.length = w4Rings.length) :=
  ring_sequence_capacity w4Rings (by decide)

/-! ### C8 and C10: notification center -/

/-- C8: a non-persistent push of duration `d ≥ 0` stores
`expires_at = now + d`, a persistent push stores no expiry; `current` returns
the stored message while persistent or read at or before the expiry instant,
and otherwise clears the notification and returns none; in particular a
non-persistent duration-0 notification is already expired at any read strictly
after the push instant. -/
theorem notice_spec (msg : String) (d now : ℚ) (hd : 0 ≤ d) :
    pushNotice false d now msg = some { message := msg, expiresAt := some (now + d) }
    ∧ pushNotice true d now msg = some { message := msg, expiresAt := none }
    ∧ (∀ n : Notice, n.expiresAt = none →
        currentNotice (some n) now = (some n.message, some n))
    ∧ (∀ (n : Notice) (e t : ℚ), n.expiresAt = some e → t ≤ e →
        currentNotice (some n) t = (some n.message, some n))
    ∧ (∀ (n : Notice) (e t : ℚ), n.expiresAt = some e → e < t →
        currentNotice (some n) t = (none, none))
    ∧ (∀ t : ℚ, now < t → (currentNotice (pushNotice false 0 now msg) t).1 = none) := by
  refine ⟨?_, rfl, ?_, ?_, ?_, ?_⟩
  · simp [pushNotice, max_eq_right hd]
  · intro n h
    simp [currentNotice, h]
  · intro n e t he ht
    simp [currentNotice, he, not_lt.mpr ht]
  · intro n e t he ht
    simp [currentNotice, he, ht]
  · intro t ht
    simp [pushNotice, currentNotice, ht]

/-- Witness for C8 at `msg = "hi"`, `d = 2`, `now = 5`. -/
theorem notice_spec_witness :
    pushNotice false 2 5 "hi" = some { message := "hi", expiresAt := some ((5 : ℚ) + 2) }
    ∧ pushNotice true 2 5 "hi" = some { message := "hi", expiresAt := none }
    ∧ (∀ n : Notice, n.expiresAt = none →
        currentNotice (some n) 5 = (some n.message, some n))
    ∧ (∀ (n : Notice) (e t : ℚ), n.expiresAt = some e → t ≤ e →
        currentNotice (some n) t = (some n.message, some n))
    ∧ (∀ (n : Notice) (e t : ℚ), n.expiresAt = some e → e < t →
        currentNotice (some n) t = (none, none))
    ∧ (∀ t : ℚ, (5 : ℚ) < t → (currentNotice (pushNotice false 0 5 "hi") t).1 = none) :=
  notice_spec "hi" 2 5 (by norm_num)

/-- C10: a non-persistent push stores the expiry `now + max 0 d`, which is
never earlier than the push instant even for a negative configured duration,
and a read performed exactly at the push instant still returns the message. -/
theorem notice_expiry_clamped (msg : String) (d now : ℚ) :
    pushNotice false d now msg
        = some { message := msg, expiresAt := some (now + max 0 d) }
    ∧ now ≤ now + max 0 d
    ∧ (currentNotice (pushNotice false d now msg) now).1 = some msg := by
  refine ⟨rfl, le_add_of_nonneg_right (le_max_left 0 d), ?_⟩
  have hnlt : ¬ (now + max 0 d < now) :=
    not_lt.mpr (le_add_of_nonneg_right (le_max_left 0 d))
  simp [pushNotice, currentNotice, hnlt]

/-! ### C9: bounded ring buffers -/

theorem appendCapped_eq_drop (cap : Nat) (buf : List String) (line : String) :
    appendCapped cap buf line = (buf ++ [line]).drop (buf.length + 1 - cap) := by
  unfold appendCapped
  by_cases h : cap < (buf ++ [line]).length
  · rw [if_pos h]
    congr 1
    simp [List.length_append]
  · rw [if_neg h]
    rw [List.length_append] at h
    rw [show buf.length + 1 - cap = 0 from by simp at h; omega, List.drop_zero]

theorem foldl_appendCapped (cap : Nat) (lines : List String) :
    lines.foldl (appendCapped cap) [] = lines.drop (lines.length - cap) := by
  induction lines using List.reverseRecOn with
  | nil => simp
  | append_singleton ls x ih =>
    rw [List.foldl_append, List.foldl_cons, List.foldl_nil, ih, appendCapped_eq_drop]
    have hA : (ls ++ [x]).drop (ls.length - cap)
        = ls.drop (ls.length - cap) ++ [x] := by
      rw [List.drop_append_eq_append_drop,
        show ls.length - cap - ls.length = 0 from by omega, List.drop_zero]
    rw [← hA, List.drop_drop]
    congr 1
    rw [List.length_drop, List.length_append]
    simp
    omega

/-- C9: folding any sequence of appends through the capacity-`cap` ring-buffer
step from the empty buffer retains exactly the most recent `min n cap` lines
in arrival order (the oldest are evicted first); `_dbg` and
`_video_probe_event` are this step at capacities 500 and 120; with capacity 3,
appending 5 lines leaves exactly the last 3. -/
theorem ring_buffer_spec (cap : Nat) (hcap : 0 < cap) (lines : List String) :
    lines.foldl (appendCapped cap) [] = lines.drop (lines.length - cap)
    ∧ (lines.foldl (appendCapped cap) []).length = min lines.length cap
    ∧ (∀ (buf : List String) (ts msg : String),
        dbgAppend buf ts msg = appendCapped 500 buf (dbgLine ts msg))
    ∧ (∀ (buf : List String) (ts msg : String),
        videoProbeAppend buf ts msg = appendCapped 120 buf (dbgLine ts msg))
    ∧ ["l1", "l2", "l3", "l4", "l5"].foldl (appendCapped 3) [] = ["l3", "l4", "l5"] := by
  refine ⟨foldl_appendCapped cap lines, ?_, fun _ _ _ => rfl, fun _ _ _ => rfl, by decide⟩
  rw [foldl_appendCapped cap lines, List.length_drop]
  omega

/-- Witness for C9 at capacity 3 with 5 appended lines. -/
theorem ring_buffer_spec_witness :
    (["a", "b", "c", "d", "e"] : List String).foldl (appendCapped 3) []
        = (["a", "b", "c", "d", "e"] : List String).drop
            ((["a", "b", "c", "d", "e"] : List String).length - 3)
    ∧ ((["a", "b", "c", "d", "e"] : List String).foldl (appendCapped 3) []).length
        = min (["a", "b", "c", "d", "e"] : List String).length 3
    ∧ (∀ (buf : List String) (ts msg : String),
        dbgAppend buf ts msg = appendCapped 500 buf (dbgLine ts msg))
    ∧ (∀ (buf : List String) (ts msg : String),
        videoProbeAppend buf ts msg = appendCapped 120 buf (dbgLine ts msg))
    ∧ ["l1", "l2", "l3", "l4", "l5"].foldl (appendCapped 3) [] = ["l3", "l4", "l5"] :=
  ring_buffer_spec 3 (by decide) ["a", "b", "c", "d", "e"]

end SelfbotVoice
